import Mathlib

/-!
Verification of llm-context.

A shallow embedding of `main.go` (the whole program: `main`, `getFileList`,
`runFzf`) together with the few Go standard-library functions it calls.

Conventions of the embedding:

* A Go `string` is a `Str`, a list of Unicode code points (the UTF-8 decoding of
  the bytes); `len` of a string is its UTF-8 byte count (`len`).
* Everything the program obtains from its environment (the flag, `PATH`
  look-ups, the outputs of `fd`, `git` and `fzf`, the directory tree, file
  contents, the clipboard) is a field of `World`.
* What the program does to its environment is recorded in an `Outcome`: the
  chunks written to standard output (one per print call), the exit status, the
  paths given to `os.ReadFile` and the texts given to `clipboard.WriteAll`.
-/

namespace LlmContext

/-- A Go string, as the list of its code points. -/
abbrev Str := List Char

/-- A Go `error` value; `msg` is what `%v` prints for it. -/
structure GoError where
  msg : Str
deriving DecidableEq, Repr

/-- The error of `cmd.Run()`: either an `*exec.ExitError` (the process ran and
exited unsuccessfully; `code` is `ExitCode()`), or any other error (the process
could not be started, an I/O error, ...). -/
inductive RunError where
  | exitError (code : Int) (msg : Str)
  | other (msg : Str)
deriving DecidableEq, Repr

deriving instance DecidableEq for Except

/-- What `%v` prints for a `RunError`. -/
def RunError.msg : RunError → Str
  | .exitError _ m => m
  | .other m => m

/-! ## Go standard library -/

/-- Go's builtin `len` on a string: the number of bytes of its UTF-8 encoding. -/
def len (s : Str) : Nat := (s.map Char.utf8Size).sum

/-- Go's `unicode.IsSpace`: the code points with the Unicode White_Space property. -/
def isSpace (c : Char) : Bool :=
  c = '\t' || c = '\n' || c.toNat = 0x0B || c.toNat = 0x0C || c = '\r' || c = ' ' ||
  c.toNat = 0x85 || c.toNat = 0xA0 || c.toNat = 0x1680 ||
  (0x2000 ≤ c.toNat && c.toNat ≤ 0x200A) ||
  c.toNat = 0x2028 || c.toNat = 0x2029 || c.toNat = 0x202F || c.toNat = 0x205F ||
  c.toNat = 0x3000

/-- Go's `strings.TrimSpace`: all leading and trailing white space removed. -/
def TrimSpace (s : Str) : Str :=
  ((s.dropWhile isSpace).reverse.dropWhile isSpace).reverse

/-- Go's `strings.Split(s, sep)` for a one-character separator: the pieces of `s`
between the occurrences of `sep`. The result is never empty: `Split "" sep` is `[""]`. -/
def Split (s : Str) (sep : Char) : List Str :=
  match s with
  | [] => [[]]
  | c :: cs =>
    if c = sep then [] :: Split cs sep
    else
      match Split cs sep with
      | [] => [[c]]
      | piece :: pieces => (c :: piece) :: pieces

/-- Go's `strings.Join(elems, sep)`. -/
def Join (elems : List Str) (sep : Str) : Str :=
  match elems with
  | [] => []
  | [e] => e
  | e :: rest => e ++ sep ++ Join rest sep

/-- Go's `strings.HasPrefix`. -/
def HasPrefix (s pre : Str) : Bool := pre.isPrefixOf s

/-- Go's `strings.TrimPrefix`. -/
def TrimPrefix (s pre : Str) : Str :=
  if HasPrefix s pre then s.drop pre.length else s

/-- The backwards scan of `filepath.Ext` over the reversed path: `acc` is the part
of the path already passed. -/
def extScan : Str → Str → Str
  | [], _ => []
  | c :: rest, acc =>
    if c = '/' then []
    else if c = '.' then '.' :: acc
    else extScan rest (c :: acc)

/-- Go's `filepath.Ext` (Unix): the suffix beginning at the final dot in the final
slash-separated element of the path, empty if there is no dot. -/
def Ext (path : Str) : Str := extScan path.reverse []

/-- The element stack of `filepath.Clean`: `out` holds the kept elements, last first. -/
def cleanElems (rooted : Bool) : List Str → List Str → List Str
  | [], out => out.reverse
  | e :: es, out =>
    if e = [] || e = ['.'] then cleanElems rooted es out
    else if e = ['.', '.'] then
      match out with
      | o :: os =>
        if o = ['.', '.'] then cleanElems rooted es (e :: out)
        else cleanElems rooted es os
      | [] => if rooted then cleanElems rooted es [] else cleanElems rooted es [e]
    else cleanElems rooted es (e :: out)

/-- Go's `filepath.Clean` (Unix). -/
def Clean (path : Str) : Str :=
  let rooted := path.head? = some '/'
  let body := Join (cleanElems rooted (Split path '/') []) ['/']
  let r := if rooted then '/' :: body else body
  if r = [] then ['.'] else r

/-- Go's `filepath.Join` of two elements (Unix): empty elements are ignored and
the result is cleaned. -/
def filepathJoin (a b : Str) : Str :=
  if a ≠ [] then Clean (a ++ '/' :: b)
  else if b ≠ [] then Clean b
  else []

/-! ## The directory tree and `filepath.WalkDir` -/

/-- A directory entry with what lies below it. A `file` is any entry that is not a
directory. For a directory, `readErr` is the error of `os.ReadDir` on it (if any)
and `entries` the entries `os.ReadDir` returns, in its order. -/
inductive Node where
  | file (name : Str)
  | dir (name : Str) (readErr : Option GoError) (entries : List Node)

/-- The method `d.Name()` of `fs.DirEntry`. -/
def Node.name : Node → Str
  | .file n => n
  | .dir n _ _ => n

/-- The method `d.IsDir()` of `fs.DirEntry`. -/
def Node.isDir : Node → Bool
  | .file _ => false
  | .dir _ _ _ => true

/-- The error a `fs.WalkDirFunc` returns: the sentinel `filepath.SkipDir` or a
real error. -/
inductive WalkError where
  | skipDir
  | io (e : GoError)
deriving DecidableEq

/-- The callback `getFileList` passes to `filepath.WalkDir` (main.go 120-132),
with the captured slice `files` threaded through. -/
def walkFn (path : Str) (d : Node) (err : Option GoError) (files : List Str) :
    List Str × Option WalkError :=
  match err with
  | some e => (files, some (.io e))
  | none =>
    if d.isDir && HasPrefix d.name ['.'] && d.name != ['.'] then (files, some .skipDir)
    else if !d.isDir then (files ++ [path], none)
    else (files, none)

/-- What `walkDir` returns after a callback error: a `SkipDir` on a directory is
a successful skip. -/
def afterFn (d : Node) (r : List Str × Option WalkError) : List Str × Option WalkError :=
  match r with
  | (files, some .skipDir) => if d.isDir then (files, none) else (files, some .skipDir)
  | other => other

mutual
/-- Go's unexported `filepath.walkDir` run with the callback `walkFn`. -/
def walkDir (path : Str) (d : Node) (files : List Str) : List Str × Option WalkError :=
  match d with
  | .file n =>
    -- `err != nil || !d.IsDir()`: the callback's result is returned
    afterFn (.file n) (walkFn path (.file n) none files)
  | .dir n readErr entries =>
    match walkFn path (.dir n readErr entries) none files with
    | (files1, some err) => afterFn (.dir n readErr entries) (files1, some err)
    | (files1, none) =>
      match readErr with
      | some e =>
        -- second call, to report the ReadDir error
        match walkFn path (.dir n readErr entries) (some e) files1 with
        | (files2, some err) => afterFn (.dir n readErr entries) (files2, some err)
        | (files2, none) => walkEntries path entries files2
      | none => walkEntries path entries files1
/-- The loop of `filepath.walkDir` over the entries of the directory `path`. -/
def walkEntries (path : Str) (entries : List Node) (files : List Str) :
    List Str × Option WalkError :=
  match entries with
  | [] => (files, none)
  | d1 :: rest =>
    match walkDir (filepathJoin path d1.name) d1 files with
    | (files1, some .skipDir) => (files1, none)
    | (files1, some err) => (files1, some err)
    | (files1, none) => walkEntries path rest files1
end

/-- Go's `filepath.WalkDir(root, walkFn)`; `lstat` is the result of `os.Lstat(root)`:
an error, or the root's entry. Returns the final `files` and the error. -/
def WalkDir (root : Str) (lstat : Except GoError Node) : List Str × Option GoError :=
  let r : List Str × Option WalkError :=
    match lstat with
    | .error e => walkFn root (.file root) (some e) []  -- `fn(root, nil, err)`: the entry is not looked at
    | .ok d => walkDir root d []
  match r with
  | (files, some (.io e)) => (files, some e)
  | (files, _) => (files, none)

/-! ## The environment and the program -/

/-- Everything the program reads from its environment in one run. -/
structure World where
  /-- the `-version` flag -/
  versionFlag : Bool
  /-- the package variable `version` -/
  version : Str
  /-- whether `exec.LookPath` finds the named program -/
  lookPath : Str → Bool
  /-- the result of `exec.Command("fd", "--type", "f").Output()` -/
  fdOutput : Except GoError Str
  /-- the error of `exec.Command("git", "rev-parse", "--is-inside-work-tree").Run()` -/
  gitRevParse : Option GoError
  /-- the result of `exec.Command("git", "ls-files").Output()` -/
  gitLsFiles : Except GoError Str
  /-- the result of `os.Lstat(".")`, with the tree below the current directory -/
  root : Except GoError Node
  /-- running fzf on the given standard input: the error of `cmd.Run()`, or the
  captured standard output -/
  fzf : Str → Except RunError Str
  /-- the result of `os.ReadFile` -/
  readFile : Str → Except GoError Str
  /-- the error of `clipboard.WriteAll`, if any -/
  clipboardWrite : Str → Option GoError

/-- The observable behaviour of one run. -/
structure Outcome where
  /-- the chunks written to standard output, one per print call, in order -/
  stdout : List Str
  /-- the exit status of the process -/
  exitCode : Nat
  /-- the arguments of the calls of `os.ReadFile`, in order -/
  reads : List Str
  /-- the arguments of the calls of `clipboard.WriteAll`, in order -/
  clipboard : List Str
deriving DecidableEq, Repr

/-- Strategy 3 of `getFileList` (main.go 118-133): the walk from "." and the
newline-joined list of the collected paths, with the walk's error. -/
def manualWalk (root : Except GoError Node) : Str × Option GoError :=
  let r := WalkDir ['.'] root
  (Join r.1 ['\n'], r.2)

/-- Strategy 1 of `getFileList` (main.go 97-104): the output of `fd`, if `fd` is
found and exits successfully. -/
def tryFd (w : World) : Option Str :=
  if w.lookPath "fd".toList then
    match w.fdOutput with
    | .ok out => some out
    | .error _ => none
  else none

/-- Strategy 2 of `getFileList` (main.go 106-116): the output of `git ls-files`,
if `git` is found, the directory is inside a work tree and the command succeeds. -/
def tryGit (w : World) : Option Str :=
  if w.lookPath "git".toList then
    match w.gitRevParse with
    | none =>
      match w.gitLsFiles with
      | .ok out => some out
      | .error _ => none
    | some _ => none
  else none

/-- The function `getFileList` of main.go. -/
def getFileList (w : World) : Str × Option GoError :=
  match tryFd w with
  | some out => (out, none)
  | none =>
    match tryGit w with
    | some out => (out, none)
    | none => manualWalk w.root

/-- The function `runFzf` of main.go: the selected lines, or the error of `cmd.Run()`. -/
def runFzf (w : World) (input : Str) : List Str × Option RunError :=
  match w.fzf input with
  | .error e => ([], some e)
  | .ok out => (Split (TrimSpace out) '\n', none)

/-- The fence tag of a file (main.go 71-74). -/
def fenceTag (file : Str) : Str :=
  let ext := TrimPrefix (Ext file) ['.']
  if ext = [] then "text".toList else ext

/-- The state of the loop of step 4 of `main`: the builder `sb`, with the output
written and the files read so far. -/
structure Assembly where
  sb : Str
  stdout : List Str
  reads : List Str
deriving DecidableEq, Repr

/-- The introductory sentence written to the builder first (main.go 59). -/
def intro : Str := "I am providing the following files as context:\n\n".toList

/-- The four writes to the builder for one file (main.go 76-79). -/
def fileBlock (file ext content : Str) : Str :=
  ("## File: ".toList ++ file ++ "\n".toList) ++ ("```".toList ++ ext ++ "\n".toList) ++
    content ++ "\n```\n\n".toList

/-- One iteration of the loop of `main` (main.go 61-80). -/
def assembleStep (w : World) (st : Assembly) (file : Str) : Assembly :=
  if file = [] then st
  else
    match w.readFile file with
    | .error e =>
      { st with
        stdout := st.stdout ++
          ["Warning: Could not read file ".toList ++ file ++ ": ".toList ++ e.msg ++ "\n".toList]
        reads := st.reads ++ [file] }
    | .ok content =>
      { st with
        sb := st.sb ++ fileBlock file (fenceTag file) content
        reads := st.reads ++ [file] }

/-- The loop of step 4 of `main` over the selection. -/
def assemble (w : World) (selectedFiles : List Str) : Assembly :=
  selectedFiles.foldl (assembleStep w) ⟨intro, [], []⟩

/-- The `%d` verb. -/
def fmtInt (n : Nat) : Str := (Nat.repr n).toList

/-- The success message of step 5 (main.go 91). -/
def successMessage (files chars : Nat) : Str :=
  "✅ Copied ".toList ++ fmtInt files ++ " files to clipboard (".toList ++ fmtInt chars ++
    " chars)!\n".toList

/-- The four chunks printed when the clipboard write fails (main.go 86-89). -/
def clipboardFallback (e : GoError) (finalOutput : Str) : List Str :=
  ["⚠️  Failed to copy to clipboard: ".toList ++ e.msg ++ "\n".toList,
   "Here is the output instead:\n".toList,
   "---------------------------\n".toList,
   finalOutput ++ "\n".toList]

/-- Steps 4 and 5 of `main`: assemble the document and copy it to the clipboard. -/
def buildAndCopy (w : World) (selectedFiles : List Str) : Outcome :=
  let st := assemble w selectedFiles
  let finalOutput := st.sb
  match w.clipboardWrite finalOutput with
  | some e =>
    { stdout := st.stdout ++ clipboardFallback e finalOutput
      exitCode := 0, reads := st.reads, clipboard := [finalOutput] }
  | none =>
    { stdout := st.stdout ++ [successMessage selectedFiles.length (len finalOutput)]
      exitCode := 0, reads := st.reads, clipboard := [finalOutput] }

/-- Step 3 of `main` and what follows it, given the file list. -/
def selectAndCopy (w : World) (files : Str) : Outcome :=
  match runFzf w files with
  | (_, some err) =>
    match err with
    | .exitError 130 _ => ⟨[], 0, [], []⟩
    | _ => ⟨["Error running fzf: ".toList ++ err.msg ++ "\n".toList], 1, [], []⟩
  | (selectedFiles, none) =>
    if selectedFiles.length = 0 then ⟨["No files selected.\n".toList], 0, [], []⟩
    else buildAndCopy w selectedFiles

/-- The function `main` of main.go. -/
def main (w : World) : Outcome :=
  if w.versionFlag then
    ⟨["llm-context version ".toList ++ w.version ++ "\n".toList], 0, [], []⟩
  else if !w.lookPath "fzf".toList then
    ⟨["Error: fzf is not installed or not in your PATH\n".toList], 1, [], []⟩
  else
    match getFileList w with
    | (_, some err) => ⟨["Error listing files: ".toList ++ err.msg ++ "\n".toList], 1, [], []⟩
    | (files, none) => selectAndCopy w files

/-! ## Worlds used as concrete inputs -/

/-- The scenario of the specification: the current directory holds `a.go` (content
"package main") and `.git/config`; neither `fd` nor `git` is installed, `fzf` is, the
user selects `a.go`, and the clipboard works. -/
def demoWorld : World where
  versionFlag := false
  version := "dev".toList
  lookPath := fun prog => prog = "fzf".toList
  fdOutput := .error ⟨"not found".toList⟩
  gitRevParse := some ⟨"not found".toList⟩
  gitLsFiles := .error ⟨"not found".toList⟩
  root := .ok (.dir ['.'] none
    [.dir ".git".toList none [.file "config".toList], .file "a.go".toList])
  fzf := fun _ => .ok "a.go\n".toList
  readFile := fun p =>
    if p = "a.go".toList then .ok "package main".toList
    else if p = ".git/config".toList then .ok "[core]".toList
    else .error ⟨"no such file or directory".toList⟩
  clipboardWrite := fun _ => none

/-- The run reaches step 3 of `main` with the file list `files`: no `-version`
flag, `fzf` is found, and `getFileList` returns `files` without an error. -/
def ReachesSelector (w : World) (files : Str) : Prop :=
  w.versionFlag = false ∧ w.lookPath "fzf".toList = true ∧ getFileList w = (files, none)

/-- The run reaches step 4 of `main` with the selection `selectedFiles`: the
selector is reached and exits successfully, and `selectedFiles` is what `runFzf`
makes of its output. -/
def Selects (w : World) (selectedFiles : List Str) : Prop :=
  ∃ files out, ReachesSelector w files ∧ w.fzf files = .ok out ∧
    selectedFiles = Split (TrimSpace out) '\n'

/-- As `demoWorld`, but the selector exits successfully having written nothing. -/
def emptySelectionWorld : World := { demoWorld with fzf := fun _ => .ok [] }

/-- As `demoWorld`, but the user selects `a.go` and `missing.go`, and `missing.go`
cannot be read. -/
def unreadableWorld : World := { demoWorld with fzf := fun _ => .ok "a.go\nmissing.go\n".toList }

/-- As `demoWorld`, but the user cancels the selector (exit status 130). -/
def cancelledWorld : World :=
  { demoWorld with fzf := fun _ => .error (.exitError 130 "exit status 130".toList) }

/-- As `demoWorld`, but the selector exits with status 2. -/
def failedSelectorWorld : World :=
  { demoWorld with fzf := fun _ => .error (.exitError 2 "exit status 2".toList) }

/-- As `demoWorld`, but the selector ends its lines with a carriage return and a
newline, and two files are selected. -/
def crlfWorld : World := { demoWorld with fzf := fun _ => .ok "a.go\r\nb.go\r\n".toList }

/-- As `demoWorld`, but the clipboard cannot be written. -/
def noClipboardWorld : World :=
  { demoWorld with clipboardWrite := fun _ => some ⟨"no clipboard utilities".toList⟩ }

/-! ## Definitions read off the claims -/

/-- The block of a file as the specification writes it, for the path `p`, the tag
`t` and the content `c`. -/
def claimedBlock (p t c : Str) : Str :=
  "## File: ".toList ++ p ++ "\n```".toList ++ t ++ "\n".toList ++ c ++ "\n```\n\n".toList

/-- The paths to read as the specification has them: the output split on newlines,
each entry trimmed of surrounding white space, the empty entries discarded. -/
def claimedPaths (out : Str) : List Str :=
  ((Split out '\n').map TrimSpace).filter (· ≠ [])

/-- As `demoWorld`, but the directory holds `README.MD`, which the user selects. -/
def readmeWorld : World :=
  { demoWorld with
    fzf := fun _ => .ok "README.MD\n".toList
    readFile := fun p =>
      if p = "README.MD".toList then .ok "# hi".toList
      else .error ⟨"no such file or directory".toList⟩ }

/-- The final element of a path: what follows its last slash. -/
def finalElement (path : Str) : Str :=
  (path.reverse.takeWhile (fun c => c != '/')).reverse

/-- The extension of a file name as the specification has it: the suffix after the
last '.' of the name, if the name has a '.'. -/
def extensionOf (name : Str) : Option Str :=
  if '.' ∈ name then some (name.reverse.takeWhile (fun c => c != '.')).reverse else none

/-- The fence tag as the specification has it: the extension in lower case, or
"text" when the file has no extension. -/
def claimedTag (file : Str) : Str :=
  match extensionOf (finalElement file) with
  | some e => e.map Char.toLower
  | none => "text".toList

/-- The fence tag as the code computes it, in the words of the specification: the
extension as written, or "text" when the file has no extension or an empty one. -/
def writtenTag (file : Str) : Str :=
  match extensionOf (finalElement file) with
  | some e => if e = [] then "text".toList else e
  | none => "text".toList

/-- As `demoWorld`, but the directory holds `a.txt` with the content "é", which the
user selects. -/
def accentWorld : World :=
  { demoWorld with
    fzf := fun _ => .ok "a.txt\n".toList
    readFile := fun p =>
      if p = "a.txt".toList then .ok "é".toList
      else .error ⟨"no such file or directory".toList⟩ }

/-- The names `os.ReadDir` can return: non-empty, not "." or "..", without a slash. -/
def validName (n : Str) : Bool :=
  n != [] && n != ['.'] && n != ['.', '.'] && !n.contains '/'

mutual
/-- Every entry at or below `d` has a name `os.ReadDir` can return. -/
def Node.wellFormed : Node → Bool
  | .file n => validName n
  | .dir n _ entries => validName n && wellFormedEntries entries
/-- Every entry of the list, and every entry below one, has a name `os.ReadDir`
can return. -/
def wellFormedEntries : List Node → Bool
  | [] => true
  | d :: rest => d.wellFormed && wellFormedEntries rest
end

/-- A name that begins with '.'. -/
def isHidden (name : Str) : Bool := name.head? = some '.'

mutual
/-- The non-directory entries at or below the entry `d` of path `path`, each with
its path and the names of its ancestor directories other than the root, outermost
first; `above` names the ancestor directories of `d` itself. -/
def filesBelow (path : Str) (above : List Str) : Node → List (Str × List Str)
  | .file _ => [(path, above)]
  | .dir n _ entries => filesIn path (above ++ [n]) entries
/-- The non-directory entries at or below the entries of the directory `path`. -/
def filesIn (path : Str) (above : List Str) : List Node → List (Str × List Str)
  | [] => []
  | d :: rest => filesBelow (filepathJoin path d.name) above d ++ filesIn path above rest
end

/-- Of a list of entries with their ancestors, the paths of those with no hidden
ancestor. -/
def unhidden (l : List (Str × List Str)) : List Str :=
  (l.filter fun pa => pa.2.all fun a => !isHidden a).map Prod.fst

/-- The result of the manual walk as the specification has it: the paths of the
non-directory entries of the tree that have no ancestor directory, other than the
root, whose name begins with '.'; `entries` are the entries of the root. -/
def visibleFiles (entries : List Node) : List Str :=
  unhidden (filesIn ['.'] [] entries)

/-- Strategy 1 succeeds with the output `out`: `fd` is found and exits successfully. -/
def FdSucceeds (w : World) (out : Str) : Prop :=
  w.lookPath "fd".toList = true ∧ w.fdOutput = .ok out

/-- Strategy 2 succeeds with the output `out`: `git` is found, the directory is
inside a work tree, and `git ls-files` exits successfully. -/
def GitSucceeds (w : World) (out : Str) : Prop :=
  w.lookPath "git".toList = true ∧ w.gitRevParse = none ∧ w.gitLsFiles = .ok out

/-- As `demoWorld`, but `fd` and `git` are installed, the directory is a work tree,
and both tools succeed. -/
def fdWorld : World :=
  { demoWorld with
    lookPath := fun _ => true
    fdOutput := .ok "a.go\nb.go\n".toList
    gitRevParse := none
    gitLsFiles := .ok "a.go\n".toList }

/-- As `fdWorld`, but `fd` exits with an error. -/
def gitWorld : World := { fdWorld with fdOutput := .error ⟨"exit status 1".toList⟩ }

/-- As `demoWorld`, but `fd` and `git` are installed and both fail, and the current
directory cannot be read. -/
def unreadableDirWorld : World :=
  { demoWorld with
    lookPath := fun _ => true
    gitRevParse := none
    root := .ok (.dir ['.'] (some ⟨"open .: permission denied".toList⟩) []) }

/-! ## Lemmas on the library functions -/

theorem Split_ne_nil (s : Str) (sep : Char) : Split s sep ≠ [] := by
  induction s with
  | nil => simp [Split]
  | cons c cs ih =>
    unfold Split
    split
    · simp
    · split <;> simp

theorem Split_length_pos (s : Str) (sep : Char) : 0 < (Split s sep).length :=
  List.length_pos.mpr (Split_ne_nil s sep)

theorem sep_not_mem_of_mem_Split (sep : Char) :
    ∀ (s : Str) (p : Str), p ∈ Split s sep → sep ∉ p := by
  intro s
  induction s with
  | nil => intro p hp; simp [Split] at hp; simp [hp]
  | cons c cs ih =>
    intro p hp
    unfold Split at hp
    split at hp
    · rcases List.mem_cons.mp hp with h | h
      · simp [h]
      · exact ih p h
    · rename_i hc
      split at hp
      · simp at hp; subst hp; simpa using fun h => hc h.symm
      · rename_i piece pieces heq
        have hmem : ∀ q ∈ piece :: pieces, sep ∉ q := by
          intro q hq; exact ih q (heq ▸ hq)
        rcases List.mem_cons.mp hp with h | h
        · subst h
          have := hmem piece (List.mem_cons_self _ _)
          simp only [List.mem_cons, not_or]
          exact ⟨fun h => hc h.symm, this⟩
        · exact hmem p (List.mem_cons_of_mem _ h)

/-! ## Lemmas on the program -/

theorem main_of_reaches {w : World} {files : Str} (h : ReachesSelector w files) :
    main w = selectAndCopy w files := by
  obtain ⟨h1, h2, h3⟩ := h
  simp only [main, h1, h2, h3, Bool.false_eq_true, if_false, Bool.not_true]

/-- The branch of `main` that prints "No files selected." is never taken: after a
successful selector run the program always goes on to steps 4 and 5. -/
theorem main_of_selects {w : World} {selectedFiles : List Str} (h : Selects w selectedFiles) :
    main w = buildAndCopy w selectedFiles := by
  obtain ⟨files, out, hr, hf, rfl⟩ := h
  rw [main_of_reaches hr]
  have hpos := Split_length_pos (TrimSpace out) '\n'
  simp [selectAndCopy, runFzf, hf, Nat.pos_iff_ne_zero.mp hpos]

theorem foldl_assembleStep_reads (w : World) (sel : List Str) :
    ∀ st : Assembly, (sel.foldl (assembleStep w) st).reads = st.reads ++ sel.filter (· ≠ []) := by
  induction sel with
  | nil => intro st; simp
  | cons p ps ih =>
    intro st
    rw [List.foldl_cons, ih]
    by_cases hp : p = []
    · simp [assembleStep, hp]
    · cases hr : w.readFile p <;> simp [assembleStep, hp, hr]

theorem foldl_assembleStep_sb_prefix (w : World) (sel : List Str) :
    ∀ st : Assembly, ∃ rest, (sel.foldl (assembleStep w) st).sb = st.sb ++ rest := by
  induction sel with
  | nil => intro st; exact ⟨[], by simp⟩
  | cons p ps ih =>
    intro st
    rw [List.foldl_cons]
    obtain ⟨rest, hrest⟩ := ih (assembleStep w st p)
    rw [hrest]
    by_cases hp : p = []
    · exact ⟨rest, by simp [assembleStep, hp]⟩
    · cases hr : w.readFile p with
      | error e => exact ⟨rest, by simp [assembleStep, hp, hr]⟩
      | ok c => exact ⟨fileBlock p (fenceTag p) c ++ rest, by simp [assembleStep, hp, hr]⟩

theorem foldl_assembleStep_stdout (w : World) (sel : List Str) :
    ∀ st : Assembly, (∀ chunk ∈ st.stdout, chunk.head? = some 'W') →
      ∀ chunk ∈ (sel.foldl (assembleStep w) st).stdout, chunk.head? = some 'W' := by
  induction sel with
  | nil => intro st h; simpa using h
  | cons p ps ih =>
    intro st h
    rw [List.foldl_cons]
    apply ih
    by_cases hp : p = []
    · simpa [assembleStep, hp] using h
    · cases hr : w.readFile p with
      | error e =>
        intro chunk hc
        simp only [assembleStep, hp, hr, if_false, List.mem_append, List.mem_singleton] at hc
        rcases hc with hc | hc
        · exact h chunk hc
        · subst hc; rfl
      | ok c => simpa [assembleStep, hp, hr] using h

/-! ## The claims -/

/-- C1 (a defect of the code). The claim: after a successful selector run whose
output is empty or blank, the program prints "No files selected.", exits 0, and
neither reads a file nor writes the clipboard. The code: `strings.Split` never
returns an empty slice, so the check `len(selectedFiles) == 0` never holds. On the
empty output the program writes the bare introduction to the clipboard and reports
"Copied 1 files"; and for every blank output the clipboard is written and the
"No files selected." message is not printed. -/
theorem C1_blank_selection_is_copied :
    main emptySelectionWorld =
      { stdout := [successMessage 1 48], exitCode := 0, reads := [], clipboard := [intro] } ∧
    (∀ (w : World) (files out : Str), ReachesSelector w files → w.fzf files = .ok out →
      TrimSpace out = [] →
      (main w).clipboard = [intro] ∧ "No files selected.\n".toList ∉ (main w).stdout) := by
  refine ⟨by decide, ?_⟩
  intro w files out hr hf ht
  have hsel : Selects w [[]] := ⟨files, out, hr, hf, by rw [ht]; rfl⟩
  rw [main_of_selects hsel]
  cases hc : w.clipboardWrite intro with
  | none =>
    have : buildAndCopy w [[]] =
        { stdout := [successMessage 1 48], exitCode := 0, reads := [], clipboard := [intro] } := by
      simp only [buildAndCopy, assemble, List.foldl, assembleStep, if_true, hc]
      rfl
    rw [this]
    exact ⟨rfl, by decide⟩
  | some e =>
    have : buildAndCopy w [[]] =
        { stdout := clipboardFallback e intro, exitCode := 0, reads := [],
          clipboard := [intro] } := by
      simp only [buildAndCopy, assemble, List.foldl, assembleStep, if_true, hc]
      rfl
    rw [this]
    refine ⟨rfl, ?_⟩
    simp [clipboardFallback, intro]

/-- C3. For a selection of non-empty, readable paths (given with their contents),
the assembled document, which is also the text handed to the clipboard, is the
introductory sentence followed by one block per path, in the order of the selection;
the block of path `p` with content `c` and tag `t` is "## File: p\n```t\nc\n```\n\n". -/
theorem C3_document_is_intro_then_blocks (w : World) (files : List (Str × Str))
    (h : ∀ pc ∈ files, pc.1 ≠ [] ∧ w.readFile pc.1 = .ok pc.2) :
    (assemble w (files.map Prod.fst)).sb =
      "I am providing the following files as context:\n\n".toList ++
        (files.map fun pc => claimedBlock pc.1 (fenceTag pc.1) pc.2).flatten ∧
    (buildAndCopy w (files.map Prod.fst)).clipboard =
      ["I am providing the following files as context:\n\n".toList ++
        (files.map fun pc => claimedBlock pc.1 (fenceTag pc.1) pc.2).flatten] := by
  have key : ∀ (fs : List (Str × Str)) (st : Assembly),
      (∀ pc ∈ fs, pc.1 ≠ [] ∧ w.readFile pc.1 = .ok pc.2) →
      ((fs.map Prod.fst).foldl (assembleStep w) st).sb =
        st.sb ++ (fs.map fun pc => claimedBlock pc.1 (fenceTag pc.1) pc.2).flatten := by
    intro fs
    induction fs with
    | nil => intro st _; simp
    | cons pc rest ih =>
      intro st hfs
      obtain ⟨hne, hread⟩ := hfs pc (List.mem_cons_self _ _)
      rw [List.map_cons, List.foldl_cons, ih _ (fun q hq => hfs q (List.mem_cons_of_mem _ hq))]
      simp [assembleStep, hne, hread, fileBlock, claimedBlock, List.append_assoc]
  have hsb := key files ⟨intro, [], []⟩ h
  refine ⟨hsb, ?_⟩
  unfold buildAndCopy
  simp only []
  split <;> exact congrArg (fun d => [d]) hsb

/-- C3, at the selection of `a.go` with content "package main". -/
theorem C3_witness :
    (assemble demoWorld ["a.go".toList]).sb =
      "I am providing the following files as context:\n\n## File: a.go\n```go\npackage main\n```\n\n".toList ∧
    (buildAndCopy demoWorld ["a.go".toList]).clipboard =
      ["I am providing the following files as context:\n\n## File: a.go\n```go\npackage main\n```\n\n".toList] :=
  C3_document_is_intro_then_blocks demoWorld [("a.go".toList, "package main".toList)] (by decide)

/-- C4 (a defect of the code). The claim: the file count of the success message
leaves out a file that could not be read. The code prints `len(selectedFiles)`:
with `a.go` and the unreadable `missing.go` selected, the document holds the one
block of `a.go`, and the message reports 2 files. -/
theorem C4_unreadable_file_is_counted :
    main unreadableWorld =
      { stdout :=
          ["Warning: Could not read file missing.go: no such file or directory\n".toList,
           "✅ Copied 2 files to clipboard (86 chars)!\n".toList]
        exitCode := 0
        reads := ["a.go".toList, "missing.go".toList]
        clipboard := [intro ++ claimedBlock "a.go".toList "go".toList "package main".toList] } := by
  decide

/-- C6. When the selector fails: on exit status 130 the program prints nothing and
exits 0; on every other failure it prints "Error running fzf: ..." and exits 1. In
both cases no file is read and the clipboard is not written. -/
theorem C6_selector_failure (w : World) (files : Str) (e : RunError)
    (hr : ReachesSelector w files) (hf : w.fzf files = .error e) :
    ((∃ m, e = .exitError 130 m) →
      main w = { stdout := [], exitCode := 0, reads := [], clipboard := [] }) ∧
    ((∀ m, e ≠ .exitError 130 m) →
      main w = { stdout := ["Error running fzf: ".toList ++ e.msg ++ "\n".toList]
                 exitCode := 1, reads := [], clipboard := [] }) := by
  rw [main_of_reaches hr]
  constructor
  · rintro ⟨m, rfl⟩
    simp [selectAndCopy, runFzf, hf]
  · intro hne
    cases e with
    | other m => simp [selectAndCopy, runFzf, hf]
    | exitError code m =>
      have hcode : code ≠ 130 := fun hc => hne m (by rw [hc])
      simp only [selectAndCopy, runFzf, hf]

/-- C6, at a cancelled selector and at a selector that exits with status 2. -/
theorem C6_witness :
    main cancelledWorld = { stdout := [], exitCode := 0, reads := [], clipboard := [] } ∧
    main failedSelectorWorld =
      { stdout := ["Error running fzf: exit status 2\n".toList]
        exitCode := 1, reads := [], clipboard := [] } :=
  ⟨(C6_selector_failure cancelledWorld "a.go".toList _ ⟨rfl, rfl, rfl⟩ rfl).1 ⟨_, rfl⟩,
   (C6_selector_failure failedSelectorWorld "a.go".toList _ ⟨rfl, rfl, rfl⟩ rfl).2
      (fun m h => by injection h with h1; exact absurd h1 (by decide))⟩

theorem assemble_reads (w : World) (sel : List Str) :
    (assemble w sel).reads = sel.filter (· ≠ []) := by
  simpa [assemble] using foldl_assembleStep_reads w sel ⟨intro, [], []⟩

theorem buildAndCopy_reads (w : World) (sel : List Str) :
    (buildAndCopy w sel).reads = sel.filter (· ≠ []) := by
  unfold buildAndCopy
  simp only []
  split <;> exact assemble_reads w sel

theorem TrimSpace_getLast (s : Str) (c : Char) (h : (TrimSpace s).getLast? = some c) :
    isSpace c = false := by
  unfold TrimSpace at h
  rw [List.getLast?_reverse] at h
  have := List.head?_dropWhile_not isSpace (s.dropWhile isSpace).reverse
  rw [h] at this
  exact this

theorem TrimSpace_head (s : Str) (c : Char) (h : (TrimSpace s).head? = some c) :
    isSpace c = false := by
  unfold TrimSpace at h
  rw [List.head?_reverse] at h
  have hsplit := List.takeWhile_append_dropWhile isSpace (s.dropWhile isSpace).reverse
  have hlast : (s.dropWhile isSpace).reverse.getLast? = some c := by
    rw [← hsplit, List.getLast?_append, h]
    rfl
  rw [List.getLast?_reverse] at hlast
  have := List.head?_dropWhile_not isSpace s
  rw [hlast] at this
  exact this

theorem Split_cons_of_ne (c : Char) (cs : Str) (sep : Char) (h : c ≠ sep) :
    ∃ piece pieces, Split (c :: cs) sep = (c :: piece) :: pieces := by
  unfold Split
  rw [if_neg h]
  split
  · exact ⟨[], [], rfl⟩
  · rename_i piece pieces _
    exact ⟨piece, pieces, rfl⟩

theorem Split_getLast (sep c : Char) (hc : c ≠ sep) :
    ∀ s : Str, s.getLast? = some c →
      ∃ p, (Split s sep).getLast? = some p ∧ p.getLast? = some c := by
  intro s
  induction s with
  | nil => intro h; simp at h
  | cons a as ih =>
    intro h
    cases as with
    | nil =>
      simp only [List.getLast?_singleton, Option.some.injEq] at h
      subst h
      exact ⟨[a], by simp [Split, hc], rfl⟩
    | cons b bs =>
      rw [List.getLast?_cons_cons] at h
      obtain ⟨p, hp, hpc⟩ := ih h
      have hne := Split_ne_nil (b :: bs) sep
      rcases hs : Split (b :: bs) sep with _ | ⟨piece, pieces⟩
      · exact absurd hs hne
      · rw [hs] at hp
        by_cases ha : a = sep
        · refine ⟨p, ?_, hpc⟩
          rw [Split, if_pos ha, hs, List.getLast?_cons_cons]
          exact hp
        · rw [Split, if_neg ha, hs]
          cases pieces with
          | nil =>
            simp only [List.getLast?_singleton, Option.some.injEq] at hp
            subst hp
            refine ⟨a :: piece, rfl, ?_⟩
            cases piece with
            | nil => simp at hpc
            | cons x xs => rw [List.getLast?_cons_cons]; exact hpc
          | cons q qs =>
            rw [List.getLast?_cons_cons] at hp
            exact ⟨p, by rw [List.getLast?_cons_cons]; exact hp, hpc⟩

theorem newline_isSpace : isSpace '\n' = true := by decide

theorem filter_ne_nil_head (t : Str) (p : Str) (c : Char)
    (hp : ((Split (TrimSpace t) '\n').filter (· ≠ [])).head? = some p)
    (hc : p.head? = some c) : isSpace c = false := by
  rcases ht : TrimSpace t with _ | ⟨a, rest⟩
  · rw [ht] at hp
    simp [Split] at hp
  · have ha : isSpace a = false := TrimSpace_head t a (by rw [ht]; rfl)
    have hne : a ≠ '\n' := by
      intro h
      rw [h, newline_isSpace] at ha
      exact absurd ha (by decide)
    obtain ⟨piece, pieces, hs⟩ := Split_cons_of_ne a rest '\n' hne
    rw [ht, hs] at hp
    simp only [ne_eq, reduceCtorEq, not_false_eq_true, decide_True, List.filter_cons_of_pos,
      List.head?_cons, Option.some.injEq] at hp
    subst hp
    simp only [List.head?_cons, Option.some.injEq] at hc
    rw [← hc]
    exact ha

theorem filter_ne_nil_getLast (t : Str) (p : Str) (c : Char)
    (hp : ((Split (TrimSpace t) '\n').filter (· ≠ [])).getLast? = some p)
    (hc : p.getLast? = some c) : isSpace c = false := by
  rcases hlast : (TrimSpace t).getLast? with _ | z
  · rw [List.getLast?_eq_none_iff] at hlast
    rw [hlast] at hp
    simp [Split] at hp
  · have hz : isSpace z = false := TrimSpace_getLast t z hlast
    have hne : z ≠ '\n' := by
      intro h
      rw [h, newline_isSpace] at hz
      exact absurd hz (by decide)
    obtain ⟨q, hq, hqz⟩ := Split_getLast '\n' z hne (TrimSpace t) hlast
    obtain ⟨ys, hys⟩ := List.getLast?_eq_some_iff.mp hq
    have hqne : q ≠ [] := by
      intro h
      rw [h] at hqz
      simp at hqz
    rw [hys, List.filter_append] at hp
    have hf : List.filter (fun x => decide (x ≠ [])) [q] = [q] := by simp [hqne]
    rw [hf, List.getLast?_concat] at hp
    simp only [Option.some.injEq] at hp
    subst hp
    rw [hqz] at hc
    simp only [Option.some.injEq] at hc
    rw [← hc]
    exact hz

/-- C7, refuted as stated. With the selector output "a.go\r\nb.go\r\n" the paths
given to `os.ReadFile` are "a.go\r" and "b.go": the first ends in white space, and
the paths are not the trimmed entries "a.go" and "b.go". -/
theorem C7_entries_are_not_trimmed :
    (main crlfWorld).reads = ["a.go\r".toList, "b.go".toList] ∧
    (main crlfWorld).reads ≠ claimedPaths "a.go\r\nb.go\r\n".toList ∧
    claimedPaths "a.go\r\nb.go\r\n".toList = ["a.go".toList, "b.go".toList] := by
  decide

/-- C7, amended. For every captured selector output, the paths the assembler tries
to read are the pieces, in order, of the output trimmed as a whole of surrounding
white space and then split on newlines, without the empty pieces. No such path is
empty and none contains a newline; the first does not begin with white space and
the last does not end with white space. -/
theorem C7_attempted_paths (w : World) (files out : Str)
    (hr : ReachesSelector w files) (hf : w.fzf files = .ok out) :
    (main w).reads = (Split (TrimSpace out) '\n').filter (· ≠ []) ∧
    (∀ p ∈ (main w).reads, p ≠ [] ∧ '\n' ∉ p) ∧
    (∀ p c, (main w).reads.head? = some p → p.head? = some c → isSpace c = false) ∧
    (∀ p c, (main w).reads.getLast? = some p → p.getLast? = some c → isSpace c = false) := by
  have hs : Selects w (Split (TrimSpace out) '\n') := ⟨files, out, hr, hf, rfl⟩
  rw [main_of_selects hs, buildAndCopy_reads]
  refine ⟨rfl, ?_, filter_ne_nil_head out, filter_ne_nil_getLast out⟩
  intro p hp
  rw [List.mem_filter] at hp
  exact ⟨by simpa using hp.2, sep_not_mem_of_mem_Split '\n' _ p hp.1⟩

/-- C7 amended, at the output "a.go\r\nb.go\r\n": the paths are "a.go\r" and "b.go". -/
theorem C7_witness :
    (main crlfWorld).reads = ["a.go\r".toList, "b.go".toList] ∧
    (∀ p ∈ (main crlfWorld).reads, p ≠ [] ∧ '\n' ∉ p) :=
  have h := C7_attempted_paths crlfWorld "a.go".toList "a.go\r\nb.go\r\n".toList
    ⟨rfl, rfl, rfl⟩ rfl
  ⟨h.1.trans (by decide), h.2.1⟩

theorem successMessage_head (n m : Nat) : (successMessage n m).head? = some '✅' := rfl

theorem assemble_sb_head (w : World) (sel : List Str) :
    (assemble w sel).sb.head? = some 'I' := by
  obtain ⟨rest, h⟩ := foldl_assembleStep_sb_prefix w sel ⟨intro, [], []⟩
  unfold assemble
  rw [h]
  rfl

theorem assemble_stdout_head (w : World) (sel : List Str) :
    ∀ chunk ∈ (assemble w sel).stdout, chunk.head? = some 'W' :=
  foldl_assembleStep_stdout w sel ⟨intro, [], []⟩ (by simp)

/-- C9. When the clipboard write fails, standard output consists of the warnings
for unreadable files followed by, in this order, the line "Failed to copy to
clipboard" with the error, the line "Here is the output instead:", the line of
dashes, and the whole document followed by a newline. No success message is printed
and the program exits with status 0. -/
theorem C9_clipboard_failure (w : World) (sel : List Str) (e : GoError)
    (hs : Selects w sel) (hc : w.clipboardWrite (assemble w sel).sb = some e) :
    (main w).stdout = (assemble w sel).stdout ++
      ["⚠️  Failed to copy to clipboard: ".toList ++ e.msg ++ "\n".toList,
       "Here is the output instead:\n".toList,
       "---------------------------\n".toList,
       (assemble w sel).sb ++ "\n".toList] ∧
    (main w).clipboard = [(assemble w sel).sb] ∧
    (main w).exitCode = 0 ∧
    (∀ n m, successMessage n m ∉ (main w).stdout) ∧
    (∀ chunk ∈ (assemble w sel).stdout, chunk.head? = some 'W') := by
  have hmain : main w =
      { stdout := (assemble w sel).stdout ++ clipboardFallback e (assemble w sel).sb
        exitCode := 0, reads := (assemble w sel).reads, clipboard := [(assemble w sel).sb] } := by
    rw [main_of_selects hs]
    simp only [buildAndCopy, hc]
  rw [hmain]
  refine ⟨rfl, rfl, rfl, ?_, assemble_stdout_head w sel⟩
  intro n m hmem
  have hhead := successMessage_head n m
  simp only [List.mem_append] at hmem
  rcases hmem with hmem | hmem
  · rw [assemble_stdout_head w sel _ hmem] at hhead
    exact absurd hhead (by decide)
  · simp only [clipboardFallback, List.mem_cons, List.mem_singleton, List.not_mem_nil,
      or_false] at hmem
    rcases hmem with h | h | h | h
    · have h2 : ("⚠️  Failed to copy to clipboard: ".toList ++ e.msg ++ "\n".toList).head? =
          some '⚠' := rfl
      rw [h, h2] at hhead
      exact absurd hhead (by decide)
    · rw [h] at hhead; exact absurd hhead (by decide)
    · rw [h] at hhead; exact absurd hhead (by decide)
    · rw [h, List.head?_append, assemble_sb_head] at hhead
      exact absurd hhead (by decide)

/-- C9, at the run of `demoWorld` without a working clipboard. -/
theorem C9_witness :
    (main noClipboardWorld).stdout =
      ["⚠️  Failed to copy to clipboard: no clipboard utilities\n".toList,
       "Here is the output instead:\n".toList,
       "---------------------------\n".toList,
       "I am providing the following files as context:\n\n## File: a.go\n```go\npackage main\n```\n\n\n".toList] ∧
    (main noClipboardWorld).exitCode = 0 :=
  have h := C9_clipboard_failure noClipboardWorld ["a.go".toList] ⟨"no clipboard utilities".toList⟩
    ⟨"a.go".toList, "a.go\n".toList, ⟨rfl, rfl, rfl⟩, rfl, by decide⟩ rfl
  ⟨h.1, h.2.2.1⟩

theorem extScan_eq (r : Str) :
    ∀ acc : Str, extScan r acc =
      if '.' ∈ r.takeWhile (fun c => c != '/') then
        '.' :: (((r.takeWhile (fun c => c != '/')).takeWhile (fun c => c != '.')).reverse ++ acc)
      else [] := by
  induction r with
  | nil => intro acc; simp [extScan]
  | cons c rest ih =>
    intro acc
    unfold extScan
    by_cases h1 : c = '/'
    · simp [h1]
    · by_cases h2 : c = '.'
      · subst h2
        simp [List.takeWhile_cons]
      · have h2' : ¬ '.' = c := fun h => h2 h.symm
        rw [if_neg h1, if_neg h2, ih]
        simp [List.takeWhile_cons, h1, h2, h2']

theorem fenceTag_eq_writtenTag (file : Str) : fenceTag file = writtenTag file := by
  unfold fenceTag writtenTag extensionOf finalElement Ext
  rw [extScan_eq]
  simp only [List.mem_reverse, List.reverse_reverse, List.append_nil]
  by_cases h : '.' ∈ file.reverse.takeWhile (fun c => c != '/')
  · simp [h, TrimPrefix, HasPrefix]
  · simp [h, TrimPrefix, HasPrefix]

/-- C2, refuted as stated. The selected `README.MD` is read successfully and its
block is fenced with the tag `MD`, not with the lower-cased `md`. -/
theorem C2_tag_is_not_lowercased :
    (main readmeWorld).clipboard =
      [intro ++ claimedBlock "README.MD".toList "MD".toList "# hi".toList] ∧
    claimedTag "README.MD".toList = "md".toList ∧
    (main readmeWorld).clipboard ≠
      [intro ++ claimedBlock "README.MD".toList (claimedTag "README.MD".toList) "# hi".toList] := by
  decide

/-- C2, amended. For every selected path that is read successfully, the tag of the
opening fence of its block is the suffix after the last '.' of the final path
element, as written (its case is kept), or "text" when the final element has no '.'
or ends in one. -/
theorem C2_fence_tag (w : World) (st : Assembly) (file content : Str)
    (hne : file ≠ []) (hread : w.readFile file = .ok content) :
    (assembleStep w st file).sb =
      st.sb ++ ("## File: ".toList ++ file ++ "\n".toList) ++
        ("```".toList ++ writtenTag file ++ "\n".toList) ++ content ++ "\n```\n\n".toList := by
  simp only [assembleStep, hne, hread, if_false, fileBlock, fenceTag_eq_writtenTag,
    List.append_assoc]

/-- C2 amended, at `Makefile`, `a.go` and `README.MD`. -/
theorem C2_witness :
    (assembleStep demoWorld ⟨[], [], []⟩ "a.go".toList).sb =
      "## File: a.go\n```go\npackage main\n```\n\n".toList ∧
    writtenTag "Makefile".toList = "text".toList ∧
    writtenTag "README.MD".toList = "MD".toList ∧
    writtenTag "archive.tar.gz".toList = "gz".toList ∧
    writtenTag "dir.d/notes.".toList = "text".toList :=
  ⟨C2_fence_tag demoWorld ⟨[], [], []⟩ "a.go".toList "package main".toList (by decide) rfl,
   by decide, by decide, by decide, by decide⟩

/-- C10 (a defect of the code). The claim: the number reported as "chars" is the
number of characters of the document. The code prints `len(finalOutput)`, the byte
length: with `a.txt` of content "é" selected, the document has 77 characters and
the message, which labels the number "chars", reports 78. In every run whose
clipboard write succeeds the two numbers of the message are the length of the
selection and the byte length of the document. -/
theorem C10_chars_is_byte_length :
    (main accentWorld).clipboard =
      [intro ++ claimedBlock "a.txt".toList "txt".toList "é".toList] ∧
    (intro ++ claimedBlock "a.txt".toList "txt".toList "é".toList).length = 77 ∧
    len (intro ++ claimedBlock "a.txt".toList "txt".toList "é".toList) = 78 ∧
    (main accentWorld).stdout = ["✅ Copied 1 files to clipboard (78 chars)!\n".toList] ∧
    (main accentWorld).stdout ≠ [successMessage 1 77] ∧
    (∀ (w : World) (sel : List Str), Selects w sel →
      w.clipboardWrite (assemble w sel).sb = none →
      (main w).stdout =
        (assemble w sel).stdout ++ [successMessage sel.length (len (assemble w sel).sb)]) := by
  refine ⟨by decide, by decide, by decide, by decide, by decide, ?_⟩
  intro w sel hs hc
  rw [main_of_selects hs]
  simp only [buildAndCopy, hc]

theorem unhidden_append (l₁ l₂ : List (Str × List Str)) :
    unhidden (l₁ ++ l₂) = unhidden l₁ ++ unhidden l₂ := by
  simp [unhidden]

mutual
theorem mem_above_of_mem_filesBelow (path : Str) (above : List Str) (d : Node)
    (pa : Str × List Str) (h : pa ∈ filesBelow path above d) : ∀ a ∈ above, a ∈ pa.2 := by
  match d with
  | .file n =>
    simp only [filesBelow, List.mem_singleton] at h
    subst h
    exact fun a ha => ha
  | .dir n re entries =>
    simp only [filesBelow] at h
    intro a ha
    exact mem_above_of_mem_filesIn path (above ++ [n]) entries pa h a
      (List.mem_append_left _ ha)
theorem mem_above_of_mem_filesIn (path : Str) (above : List Str) (entries : List Node)
    (pa : Str × List Str) (h : pa ∈ filesIn path above entries) : ∀ a ∈ above, a ∈ pa.2 := by
  match entries with
  | [] => simp [filesIn] at h
  | d :: rest =>
    simp only [filesIn, List.mem_append] at h
    rcases h with h | h
    · exact mem_above_of_mem_filesBelow _ above d pa h
    · exact mem_above_of_mem_filesIn path above rest pa h
end

theorem unhidden_filesIn_of_hidden (path : Str) (above : List Str) (entries : List Node)
    (a : Str) (ha : a ∈ above) (hh : isHidden a = true) :
    unhidden (filesIn path above entries) = [] := by
  unfold unhidden
  rw [List.map_eq_nil_iff, List.filter_eq_nil_iff]
  intro pa hpa hall
  have hmem := mem_above_of_mem_filesIn path above entries pa hpa a ha
  rw [List.all_eq_true] at hall
  have := hall a hmem
  simp [hh] at this

theorem HasPrefix_dot (n : Str) : HasPrefix n ['.'] = isHidden n := by
  cases n with
  | nil => rfl
  | cons c cs =>
    by_cases h : c = '.'
    · simp [HasPrefix, isHidden, h]
    · have h' : ¬ '.' = c := fun e => h e.symm
      simp [HasPrefix, isHidden, h, h', List.isPrefixOf]

theorem ne_dot_of_validName (n : Str) (h : validName n = true) : (n != ['.']) = true := by
  unfold validName at h
  simp only [Bool.and_eq_true] at h
  exact h.1.1.2

mutual
theorem walkDir_spec (path : Str) (above : List Str) (d : Node) (files : List Str)
    (hwf : d.wellFormed = true) (habove : (above.all fun a => !isHidden a) = true) :
    (walkDir path d files).2 ≠ some .skipDir ∧
    ((walkDir path d files).2 = none →
      (walkDir path d files).1 = files ++ unhidden (filesBelow path above d)) := by
  match d with
  | .file n =>
    simp [walkDir, walkFn, afterFn, Node.isDir, filesBelow, unhidden, habove]
  | .dir n re entries =>
    simp only [Node.wellFormed, Bool.and_eq_true] at hwf
    have hdot := ne_dot_of_validName n hwf.1
    by_cases hh : isHidden n = true
    · have hw : walkDir path (.dir n re entries) files = (files, none) := by
        simp [walkDir, walkFn, afterFn, Node.isDir, Node.name, HasPrefix_dot, hh, hdot]
      rw [hw]
      refine ⟨by simp, fun _ => ?_⟩
      simp only [filesBelow]
      rw [unhidden_filesIn_of_hidden path (above ++ [n]) entries n (by simp) hh]
      simp
    · cases re with
      | some e =>
        have hw : walkDir path (.dir n (some e) entries) files = (files, some (.io e)) := by
          simp [walkDir, walkFn, afterFn, Node.isDir, Node.name, HasPrefix_dot, hh]
        rw [hw]
        simp
      | none =>
        have hw : walkDir path (.dir n none entries) files = walkEntries path entries files := by
          simp [walkDir, walkFn, afterFn, Node.isDir, Node.name, HasPrefix_dot, hh]
        rw [hw]
        have habove' : ((above ++ [n]).all fun a => !isHidden a) = true := by
          simp only [List.all_append, Bool.and_eq_true, habove, true_and]
          simpa using hh
        simpa only [filesBelow] using
          walkEntries_spec path (above ++ [n]) entries files hwf.2 habove'
theorem walkEntries_spec (path : Str) (above : List Str) (entries : List Node)
    (files : List Str) (hwf : wellFormedEntries entries = true)
    (habove : (above.all fun a => !isHidden a) = true) :
    (walkEntries path entries files).2 ≠ some .skipDir ∧
    ((walkEntries path entries files).2 = none →
      (walkEntries path entries files).1 = files ++ unhidden (filesIn path above entries)) := by
  match entries with
  | [] => simp [walkEntries, filesIn, unhidden]
  | d :: rest =>
    simp only [wellFormedEntries, Bool.and_eq_true] at hwf
    have hd := walkDir_spec (filepathJoin path d.name) above d files hwf.1 habove
    unfold walkEntries
    rcases hres : walkDir (filepathJoin path d.name) d files with ⟨files1, err⟩
    rw [hres] at hd
    cases err with
    | some e =>
      cases e with
      | skipDir => exact absurd rfl hd.1
      | io e => simp
    | none =>
      have hrest := walkEntries_spec path above rest files1 hwf.2 habove
      refine ⟨hrest.1, fun hnone => ?_⟩
      simp only [] at hnone ⊢
      have hfiles1 : files1 = files ++ unhidden (filesBelow (filepathJoin path d.name) above d) :=
        hd.2 rfl
      rw [hrest.2 hnone, hfiles1, filesIn, unhidden_append, List.append_assoc]
end

/-- C5. For every directory tree (of entries with names `os.ReadDir` can return) on
which the walk raises no error, the manual-walk fallback returns, joined with
newlines, exactly the paths of the non-directory entries that have no ancestor
directory, other than the root ".", whose name begins with '.'. -/
theorem C5_manual_walk (readErr : Option GoError) (entries : List Node)
    (hwf : wellFormedEntries entries = true)
    (hok : (manualWalk (.ok (.dir ['.'] readErr entries))).2 = none) :
    (manualWalk (.ok (.dir ['.'] readErr entries))).1 = Join (visibleFiles entries) ['\n'] := by
  cases readErr with
  | some e =>
    have : (manualWalk (.ok (.dir ['.'] (some e) entries))).2 = some e := by
      simp [manualWalk, WalkDir, walkDir, walkFn, afterFn, Node.isDir, Node.name, HasPrefix]
    rw [this] at hok
    exact absurd hok (by simp)
  | none =>
    have hw : walkDir ['.'] (.dir ['.'] none entries) [] = walkEntries ['.'] entries [] := by
      simp [walkDir, walkFn, afterFn, Node.isDir, Node.name, HasPrefix]
    have hspec := walkEntries_spec ['.'] [] entries [] hwf (by simp)
    simp only [manualWalk, WalkDir, hw] at hok ⊢
    rcases hres : walkEntries ['.'] entries [] with ⟨files, err⟩
    rw [hres] at hspec hok
    cases err with
    | some e =>
      cases e with
      | skipDir => exact absurd rfl hspec.1
      | io e => simp at hok
    | none =>
      have hfiles : files = [] ++ unhidden (filesIn ['.'] [] entries) := hspec.2 rfl
      simp only [visibleFiles]
      rw [hfiles]
      rfl

/-- C5, at the tree of `a.go` and `.git/config`, and at a tree that also holds the
files `.env` and `sub/.keep` and the hidden directory `sub/.cache`. -/
theorem C5_witness :
    (manualWalk (.ok (.dir ['.'] none
      [.dir ".git".toList none [.file "config".toList], .file "a.go".toList]))).1 =
        "a.go".toList ∧
    (manualWalk (.ok (.dir ['.'] none
      [.file ".env".toList,
       .dir ".git".toList none [.file "config".toList],
       .file "a.go".toList,
       .dir "sub".toList none
        [.dir ".cache".toList none [.file "x".toList], .file ".keep".toList,
         .file "b.go".toList]]))).1 =
        ".env\na.go\nsub/.keep\nsub/b.go".toList :=
  ⟨C5_manual_walk none
      [.dir ".git".toList none [.file "config".toList], .file "a.go".toList] (by decide) (by decide),
   C5_manual_walk none
      [.file ".env".toList,
       .dir ".git".toList none [.file "config".toList],
       .file "a.go".toList,
       .dir "sub".toList none
        [.dir ".cache".toList none [.file "x".toList], .file ".keep".toList,
         .file "b.go".toList]] (by decide) (by decide)⟩

theorem tryFd_eq_some_iff (w : World) (out : Str) : tryFd w = some out ↔ FdSucceeds w out := by
  unfold tryFd FdSucceeds
  cases hl : w.lookPath "fd".toList <;> cases hf : w.fdOutput <;> simp

theorem tryGit_eq_some_iff (w : World) (out : Str) :
    tryGit w = some out ↔ GitSucceeds w out := by
  unfold tryGit GitSucceeds
  cases hl : w.lookPath "git".toList <;> cases hr : w.gitRevParse <;>
    cases hf : w.gitLsFiles <;> simp

theorem tryFd_eq_none_iff (w : World) : tryFd w = none ↔ ¬ ∃ out, FdSucceeds w out := by
  constructor
  · rintro h ⟨out, ho⟩
    rw [(tryFd_eq_some_iff w out).mpr ho] at h
    exact absurd h (by simp)
  · intro h
    cases hf : tryFd w with
    | none => rfl
    | some out => exact absurd ⟨out, (tryFd_eq_some_iff w out).mp hf⟩ h

theorem tryGit_eq_none_iff (w : World) : tryGit w = none ↔ ¬ ∃ out, GitSucceeds w out := by
  constructor
  · rintro h ⟨out, ho⟩
    rw [(tryGit_eq_some_iff w out).mpr ho] at h
    exact absurd h (by simp)
  · intro h
    cases hf : tryGit w with
    | none => rfl
    | some out => exact absurd ⟨out, (tryGit_eq_some_iff w out).mp hf⟩ h

/-- C8. `getFileList` tries its strategies in order and the first success wins: the
output of `fd` if `fd` succeeds; otherwise the output of `git ls-files` if git
succeeds; otherwise the result of the manual walk. It returns an error only when
neither tool succeeded and the walk failed, and the error is then the walk's. -/
theorem C8_first_success_wins (w : World) :
    (∀ out, FdSucceeds w out → getFileList w = (out, none)) ∧
    (∀ out, (¬ ∃ o, FdSucceeds w o) → GitSucceeds w out → getFileList w = (out, none)) ∧
    ((¬ ∃ o, FdSucceeds w o) → (¬ ∃ o, GitSucceeds w o) →
      getFileList w = manualWalk w.root) ∧
    (∀ e, (getFileList w).2 = some e →
      (¬ ∃ o, FdSucceeds w o) ∧ (¬ ∃ o, GitSucceeds w o) ∧ (manualWalk w.root).2 = some e) := by
  refine ⟨?_, ?_, ?_, ?_⟩
  · intro out h
    simp only [getFileList, (tryFd_eq_some_iff w out).mpr h]
  · intro out hfd h
    simp only [getFileList, (tryFd_eq_none_iff w).mpr hfd, (tryGit_eq_some_iff w out).mpr h]
  · intro hfd hgit
    simp only [getFileList, (tryFd_eq_none_iff w).mpr hfd, (tryGit_eq_none_iff w).mpr hgit]
  · intro e he
    unfold getFileList at he
    cases hfd : tryFd w with
    | some out => rw [hfd] at he; simp at he
    | none =>
      cases hgit : tryGit w with
      | some out => rw [hfd, hgit] at he; simp at he
      | none =>
        rw [hfd, hgit] at he
        exact ⟨(tryFd_eq_none_iff w).mp hfd, (tryGit_eq_none_iff w).mp hgit, he⟩

/-- C8, at four runs: `fd` succeeds; `fd` fails and git succeeds; neither tool is
installed and the walk succeeds; both tools fail and the walk fails. -/
theorem C8_witness :
    getFileList fdWorld = ("a.go\nb.go\n".toList, none) ∧
    getFileList gitWorld = ("a.go\n".toList, none) ∧
    getFileList demoWorld = ("a.go".toList, none) ∧
    (manualWalk unreadableDirWorld.root).2 = some ⟨"open .: permission denied".toList⟩ :=
  ⟨(C8_first_success_wins fdWorld).1 _ ⟨rfl, rfl⟩,
   (C8_first_success_wins gitWorld).2.1 _ (by rintro ⟨o, -, h⟩; cases h) ⟨rfl, rfl, rfl⟩,
   ((C8_first_success_wins demoWorld).2.2.1 (by rintro ⟨o, h, -⟩; cases h)
      (by rintro ⟨o, h, -⟩; cases h)).trans (by decide),
   ((C8_first_success_wins unreadableDirWorld).2.2.2 ⟨"open .: permission denied".toList⟩
      (by decide)).2.2⟩

end LlmContext
